import Mathlib

/-!
Verification development for the `slink` file-sharing utility
(`src/main.rs`, `src/commands.rs`).

The Rust code is shallowly embedded: pure string/byte computations become
Lean functions over `String` / `List Char` / `List Nat`, filesystem and
database mutations become explicit state passing over small state records,
and fallible Rust code (`Result`, panics) becomes `Except` / `Option`.
The BLAKE3 library is external to the repository and is abstracted as a
structure of functions whose only assumed property is the documented
32-byte output length.
-/

namespace Slink

/-! ## URL-safe base64 without padding

Embedding of `base64::engine::general_purpose::URL_SAFE_NO_PAD.encode`
(RFC 4648 §5 alphabet, no `=` padding), as used in
`calculate_share_hash` (src/main.rs:248). Bytes are `Nat`s below 256. -/

/-- The URL-safe base64 alphabet `A-Z a-z 0-9 - _` (RFC 4648 §5). -/
def b64UrlAlphabet : List Char :=
  ['A','B','C','D','E','F','G','H','I','J','K','L','M','N','O','P','Q','R',
   'S','T','U','V','W','X','Y','Z','a','b','c','d','e','f','g','h','i','j',
   'k','l','m','n','o','p','q','r','s','t','u','v','w','x','y','z','0','1',
   '2','3','4','5','6','7','8','9','-','_']

/-- Character for a 6-bit group (out-of-range indices cannot arise but
default into the alphabet as well). -/
def b64char (i : Nat) : Char := b64UrlAlphabet.getD i 'A'

/-- URL-safe no-pad base64 of a byte list: 3 input bytes become 4
characters, a final group of 1 or 2 bytes becomes 2 or 3 characters and
no padding is emitted. -/
def b64encode : List Nat → List Char
  | [] => []
  | [b1] => [b64char (b1 / 4), b64char (b1 % 4 * 16)]
  | [b1, b2] => [b64char (b1 / 4), b64char (b1 % 4 * 16 + b2 / 16),
                 b64char (b2 % 16 * 4)]
  | b1 :: b2 :: b3 :: rest =>
      b64char (b1 / 4) :: b64char (b1 % 4 * 16 + b2 / 16) ::
      b64char (b2 % 16 * 4 + b3 / 64) :: b64char (b3 % 64) ::
      b64encode rest

theorem b64char_mem_alphabet (i : Nat) : b64char i ∈ b64UrlAlphabet := by
  unfold b64char
  by_cases h : i < b64UrlAlphabet.length
  · rw [List.getD_eq_getElem _ _ h]
    exact List.getElem_mem h
  · rw [List.getD_eq_default _ _ (Nat.le_of_not_lt h)]
    decide

theorem b64encode_mem_alphabet :
    ∀ (l : List Nat), ∀ c ∈ b64encode l, c ∈ b64UrlAlphabet := by
  intro l
  induction l using b64encode.induct with
  | case1 => simp [b64encode]
  | case2 b1 =>
      simp only [b64encode, List.mem_cons, List.not_mem_nil, or_false]
      rintro c (rfl | rfl) <;> exact b64char_mem_alphabet _
  | case3 b1 b2 =>
      simp only [b64encode, List.mem_cons, List.not_mem_nil, or_false]
      rintro c (rfl | rfl | rfl) <;> exact b64char_mem_alphabet _
  | case4 b1 b2 b3 rest ih =>
      simp only [b64encode, List.mem_cons]
      rintro c (rfl | rfl | rfl | rfl | hc)
      · exact b64char_mem_alphabet _
      · exact b64char_mem_alphabet _
      · exact b64char_mem_alphabet _
      · exact b64char_mem_alphabet _
      · exact ih c hc

/-- Length of the no-pad encoding: `⌈4n/3⌉` characters for `n` bytes. -/
theorem b64encode_length :
    ∀ (l : List Nat), (b64encode l).length = (4 * l.length + 2) / 3 := by
  intro l
  induction l using b64encode.induct with
  | case1 => simp [b64encode]
  | case2 b1 => simp [b64encode]
  | case3 b1 b2 => simp [b64encode]
  | case4 b1 b2 b3 rest ih =>
      simp only [b64encode, List.length_cons, ih]
      omega

/-! ## HashEngine: `calculate_share_hash` (src/main.rs:241-249)

The `blake3` crate is external to the repository; it is abstracted as a
structure of functions whose only assumed property is the documented
32-byte output of `blake3::keyed_hash`. -/

/-- Abstraction of the external `blake3` crate: `derive_key context key_material`
and `keyed_hash key input`. Bytes are `Nat`s; inputs are byte lists. -/
structure Blake3 where
  derive_key : String → String → List Nat
  keyed_hash : List Nat → List Nat → List Nat
  keyed_hash_length : ∀ k m, (keyed_hash k m).length = 32

/-- Bytes of a string as fed to the hasher (`.as_bytes()`); code points stand
in for UTF-8 bytes (they agree on ASCII, and concatenation of strings maps to
concatenation of byte lists either way). -/
def strBytes (s : String) : List Nat := s.data.map Char.toNat

/-- Embedding of `calculate_share_hash` (src/main.rs:241-249):
derive a key from the secret with context `"slink"`, keyed-hash the
concatenation `format!("{}{}", uuid, recipient)`, slice the first
`hash_bytes` bytes and base64-encode them URL-safely without padding.
The Rust slice `&keyed_hash.as_bytes()[..hash_bytes]` panics when
`hash_bytes` exceeds the 32-byte hash length; the panic is modelled as
`none`. The function performs no other validation. -/
def calculate_share_hash (B : Blake3) (uuid recipient secret : String)
    (hash_bytes : Nat) : Option String :=
  let key := B.derive_key "slink" secret
  let keyed_hash := B.keyed_hash key (strBytes (uuid ++ recipient))
  if hash_bytes ≤ keyed_hash.length then
    some (String.mk (b64encode (keyed_hash.take hash_bytes)))
  else
    none

/-- Concrete `Blake3` instance used by witnesses and counterexamples:
every hash output byte is zero. -/
def zeroBlake3 : Blake3 where
  derive_key := fun _ _ => List.replicate 32 0
  keyed_hash := fun _ _ => List.replicate 32 0
  keyed_hash_length := fun _ _ => by simp

/-- C2: for every identifier `u`, recipient `r`, non-empty secret `s` and
`output_length` `n` with `2 ≤ n ≤ 32`, `calculate_share_hash` returns exactly
the URL-safe base64 encoding, with no padding, of the first `n` bytes of the
BLAKE3 keyed hash (keyed by a key derived from the secret) of the byte
concatenation of `u` followed by `r` with no separator; every character of the
token is in the URL-safe alphabet (in particular no `=` and no `/`, so the
token is a valid path segment) and the token has `⌈4n/3⌉` characters. -/
theorem c2_share_hash_encoding (B : Blake3) (u r s : String) (n : Nat)
    (h2 : 2 ≤ n) (h32 : n ≤ 32) (hsec : s ≠ "") :
    calculate_share_hash B u r s n =
      some (String.mk (b64encode
        ((B.keyed_hash (B.derive_key "slink" s) (strBytes (u ++ r))).take n))) ∧
    ∀ tok, calculate_share_hash B u r s n = some tok →
      (∀ c ∈ tok.data, c ∈ b64UrlAlphabet) ∧
      '=' ∉ tok.data ∧ '/' ∉ tok.data ∧
      tok.length = (4 * n + 2) / 3 := by
  have hlen := B.keyed_hash_length (B.derive_key "slink" s) (strBytes (u ++ r))
  have hok : calculate_share_hash B u r s n =
      some (String.mk (b64encode
        ((B.keyed_hash (B.derive_key "slink" s) (strBytes (u ++ r))).take n))) := by
    simp only [calculate_share_hash]
    rw [hlen, if_pos (show n ≤ 32 by omega)]
  refine ⟨hok, fun tok htok => ?_⟩
  rw [hok] at htok
  obtain rfl : tok = String.mk (b64encode
      ((B.keyed_hash (B.derive_key "slink" s) (strBytes (u ++ r))).take n)) :=
    (Option.some_injective _ htok).symm
  refine ⟨fun c hc => b64encode_mem_alphabet _ c hc, ?_, ?_, ?_⟩
  · intro hmem
    have := b64encode_mem_alphabet _ _ hmem
    revert this
    decide
  · intro hmem
    have := b64encode_mem_alphabet _ _ hmem
    revert this
    decide
  · show (String.mk _).length = _
    rw [String.length, b64encode_length, List.length_take, hlen]
    rw [Nat.min_eq_left h32]

/-- Witness for C2 at a concrete input. -/
theorem c2_share_hash_encoding_witness :
    calculate_share_hash zeroBlake3 "u" "r" "s" 2 =
      some (String.mk (b64encode
        ((zeroBlake3.keyed_hash (zeroBlake3.derive_key "slink" "s")
          (strBytes ("u" ++ "r"))).take 2))) ∧
    ∀ tok, calculate_share_hash zeroBlake3 "u" "r" "s" 2 = some tok →
      (∀ c ∈ tok.data, c ∈ b64UrlAlphabet) ∧
      '=' ∉ tok.data ∧ '/' ∉ tok.data ∧
      tok.length = (4 * 2 + 2) / 3 :=
  c2_share_hash_encoding zeroBlake3 "u" "r" "s" 2 (by decide) (by decide)
    (by decide)

/-- C8 counterexample: with `hash_bytes = 1` (outside the supported range
`[2,32]`) and an empty secret, `calculate_share_hash` succeeds with token
`"AA"` instead of failing with a `ConfigurationError`. -/
theorem c8_counterexample :
    calculate_share_hash zeroBlake3 "u" "r" "" 1 = some "AA" := by decide

/-- C8 (amended): `calculate_share_hash` performs no validation of its inputs:
for every `hash_bytes ≤ 32` it succeeds regardless of the secret (even empty)
and regardless of `hash_bytes < 2`; for `hash_bytes > 32` it panics (slice
index out of bounds, modelled as `none`) rather than returning a
`ConfigurationError`. The `[2,32]` range is enforced only by the interactive
configuration wizard (src/commands.rs:65-75). -/
theorem c8_no_validation (B : Blake3) (u r s : String) (n : Nat) :
    (n ≤ 32 → (calculate_share_hash B u r s n).isSome = true) ∧
    (32 < n → calculate_share_hash B u r s n = none) := by
  have hlen := B.keyed_hash_length (B.derive_key "slink" s) (strBytes (u ++ r))
  constructor <;> intro h <;>
    · simp only [calculate_share_hash]
      rw [hlen]
      simp
      omega

/-- Witness for C8 (amended) at concrete inputs. -/
theorem c8_no_validation_witness :
    (calculate_share_hash zeroBlake3 "u" "r" "" 1).isSome = true ∧
    calculate_share_hash zeroBlake3 "u" "r" "" 40 = none :=
  ⟨(c8_no_validation zeroBlake3 "u" "r" "" 1).1 (by decide),
   (c8_no_validation zeroBlake3 "u" "r" "" 40).2 (by decide)⟩

/-! ## PrivilegeTransition: `set_permissions_recursive` (src/main.rs:251-295)
and `remove_file_with_access` (src/main.rs:297-311)

The walked directory tree is a nested inductive (`fileN` / `dirN children`),
a node is addressed by its list of child indices, and the function is
embedded as the sequence of `chmod`/`chown` syscalls it issues, in order.
Ownership is abstracted to the two principals that occur in the code:
`operating` (`getuid`/`getgid`) and `service` (`web_user`/`web_group`). -/

/-- The two ownership principals of the privilege transition. -/
inductive Owner
  | operating
  | service
deriving DecidableEq, Repr

/-- One filesystem effect: a `set_permissions` (chmod) or a `chown`,
on the node addressed by the given child-index path. -/
inductive FsEvent
  | setPerm (p : List Nat) (mode : Nat)
  | chownTo (p : List Nat) (o : Owner)
deriving DecidableEq, Repr

/-- The node an event acts on. -/
def FsEvent.pathOf : FsEvent → List Nat
  | .setPerm p _ => p
  | .chownTo p _ => p

/-- A directory tree: plain files and directories with an ordered list of
children (the `fs::read_dir` iteration order). -/
inductive FsTree
  | fileN : FsTree
  | dirN : List FsTree → FsTree

mutual
/-- Effect trace of `set_permissions_recursive(path, dir_mode, file_mode, ...)`
(src/main.rs:251-295) on the subtree rooted at path `p`.
For a directory: chmod `0o700`, chown to the operating identity, recurse into
each child in order, then chmod `dir_mode` and chown to the service identity.
For a file: chmod `0o600`, chown operating, chmod `file_mode`, chown service. -/
def lockdownTrace (dm fm : Nat) : FsTree → List Nat → List FsEvent
  | .fileN, p =>
      [.setPerm p 0o600, .chownTo p .operating, .setPerm p fm, .chownTo p .service]
  | .dirN cs, p =>
      [.setPerm p 0o700, .chownTo p .operating]
        ++ lockdownChildren dm fm cs p 0
        ++ [.setPerm p dm, .chownTo p .service]

/-- Effects of the `for entry in fs::read_dir(path)` loop: the children of
`p` starting at child index `i`, each fully processed in order. -/
def lockdownChildren (dm fm : Nat) : List FsTree → List Nat → Nat → List FsEvent
  | [], _, _ => []
  | c :: rest, p, i =>
      lockdownTrace dm fm c (p ++ [i]) ++ lockdownChildren dm fm rest p (i + 1)
end

/-- Effect trace of the privilege-restoring step of `remove_file_with_access`
(src/main.rs:297-305): chown the given path to the operating identity, then
chmod it to `0o700`. No other node of the tree is touched before
`remove_dir_all` deletes it. -/
def reclaimTrace (p : List Nat) : List FsEvent :=
  [.chownTo p .operating, .setPerm p 0o700]

/-- Subtree of `t` at child-index path `q` (`none` if the path is invalid). -/
def subtreeAt? : List Nat → FsTree → Option FsTree
  | [], t => some t
  | _ :: _, .fileN => none
  | i :: q, .dirN cs =>
      match cs.get? i with
      | none => none
      | some c => subtreeAt? q c

/-- The final mode `set_permissions_recursive` gives a node:
`dir_mode` for directories, `file_mode` for files. -/
def nodeFinalMode (dm fm : Nat) : FsTree → Nat
  | .fileN => fm
  | .dirN _ => dm

/-- The temporary owner-exclusive mode: `0o700` for directories,
`0o600` for files. -/
def nodeTempMode : FsTree → Nat
  | .fileN => 0o600
  | .dirN _ => 0o700

/-- The four events `set_permissions_recursive` issues on one node (in this
order; for a directory the children's events come between the second and
third). -/
def nodeEvents (dm fm : Nat) (p : List Nat) (t : FsTree) : List FsEvent :=
  [.setPerm p (nodeTempMode t), .chownTo p .operating,
   .setPerm p (nodeFinalMode dm fm t), .chownTo p .service]

theorem lockdownChildren_ext_of (dm fm : Nat) (cs : List FsTree)
    (hall : ∀ c ∈ cs, ∀ p e, e ∈ lockdownTrace dm fm c p → ∃ r, e.pathOf = p ++ r) :
    ∀ p i e, e ∈ lockdownChildren dm fm cs p i →
      ∃ j r, i ≤ j ∧ e.pathOf = p ++ j :: r := by
  induction cs with
  | nil => intro p i e he; simp [lockdownChildren] at he
  | cons c rest ih =>
      intro p i e he
      rw [lockdownChildren] at he
      rcases List.mem_append.mp he with h1 | h2
      · obtain ⟨r, hr⟩ := hall c (by simp) (p ++ [i]) e h1
        exact ⟨i, r, le_refl i, by simpa using hr⟩
      · obtain ⟨j, r, hij, hr⟩ := ih (fun c' hc' => hall c' (by simp [hc'])) p (i + 1) e h2
        exact ⟨j, r, by omega, hr⟩

/-- Every event of the trace of the subtree rooted at `p` acts at or below `p`. -/
theorem lockdownTrace_ext (dm fm : Nat) (t : FsTree) :
    ∀ p e, e ∈ lockdownTrace dm fm t p → ∃ r, e.pathOf = p ++ r := by
  have main : ∀ (n : Nat) (t : FsTree), sizeOf t ≤ n →
      ∀ p e, e ∈ lockdownTrace dm fm t p → ∃ r, e.pathOf = p ++ r := by
    intro n
    induction n with
    | zero =>
        intro t ht
        exfalso
        cases t <;> simp at ht
    | succ n ih =>
        intro t ht p e he
        cases t with
        | fileN =>
            rw [lockdownTrace] at he
            simp only [List.mem_cons, List.not_mem_nil, or_false] at he
            rcases he with rfl | rfl | rfl | rfl <;> exact ⟨[], by simp [FsEvent.pathOf]⟩
        | dirN cs =>
            rw [lockdownTrace] at he
            rcases List.mem_append.mp he with he' | hfin
            · rcases List.mem_append.mp he' with htmp | hch
              · simp only [List.mem_cons, List.not_mem_nil, or_false] at htmp
                rcases htmp with rfl | rfl <;> exact ⟨[], by simp [FsEvent.pathOf]⟩
              · have hall : ∀ c ∈ cs, ∀ p' e', e' ∈ lockdownTrace dm fm c p' →
                    ∃ r, e'.pathOf = p' ++ r := by
                  intro c hc
                  apply ih
                  have h1 : sizeOf c < sizeOf cs := List.sizeOf_lt_of_mem hc
                  have h2 : sizeOf (FsTree.dirN cs) = 1 + sizeOf cs := by
                    simp [FsTree.dirN.sizeOf_spec]
                  omega
                obtain ⟨j, r, _, hr⟩ := lockdownChildren_ext_of dm fm cs hall p 0 e hch
                exact ⟨j :: r, hr⟩
            · simp only [List.mem_cons, List.not_mem_nil, or_false] at hfin
              rcases hfin with rfl | rfl <;> exact ⟨[], by simp [FsEvent.pathOf]⟩
  exact main (sizeOf t) t (le_refl _)

/-- Every event of the children loop acts below `p`, at a child index `≥ i`. -/
theorem lockdownChildren_ext (dm fm : Nat) (cs : List FsTree) :
    ∀ p i e, e ∈ lockdownChildren dm fm cs p i →
      ∃ j r, i ≤ j ∧ e.pathOf = p ++ j :: r :=
  lockdownChildren_ext_of dm fm cs (fun c _ => lockdownTrace_ext dm fm c)

theorem ne_append_cons (xs : List Nat) (y : Nat) (ys : List Nat) :
    xs ≠ xs ++ y :: ys := by
  intro h
  have := congrArg List.length h
  simp only [List.length_append, List.length_cons] at this
  omega

theorem append_cons_ne (p : List Nat) {a b : Nat} (r s : List Nat) (h : a ≠ b) :
    p ++ a :: r ≠ p ++ b :: s := by
  intro hcontra
  have h2 := List.append_cancel_left hcontra
  injection h2 with h3 _
  exact h h3

/-- Filter predicate selecting the events acting exactly on `target`. -/
def pathFilter (target : List Nat) : FsEvent → Bool :=
  fun e => decide (e.pathOf = target)

theorem lockdownChildren_filter_of (dm fm : Nat) (q' : List Nat)
    (IH : ∀ (t nq : FsTree) (p : List Nat), subtreeAt? q' t = some nq →
      (lockdownTrace dm fm t p).filter (pathFilter (p ++ q')) =
        nodeEvents dm fm (p ++ q') nq) :
    ∀ (cs : List FsTree) (j : Nat) (c nq : FsTree) (p : List Nat) (i : Nat),
      cs.get? j = some c → subtreeAt? q' c = some nq →
      (lockdownChildren dm fm cs p i).filter (pathFilter (p ++ (i + j) :: q')) =
        nodeEvents dm fm (p ++ (i + j) :: q') nq := by
  intro cs
  induction cs with
  | nil => intro j c nq p i hg; simp at hg
  | cons c0 rest ih =>
      intro j c nq p i hg hsub
      rw [lockdownChildren, List.filter_append]
      cases j with
      | zero =>
          obtain rfl : c0 = c := by simpa using hg
          have h1 : (lockdownTrace dm fm c0 (p ++ [i])).filter
              (pathFilter (p ++ (i + 0) :: q')) =
              nodeEvents dm fm (p ++ (i + 0) :: q') nq := by
            have hIH := IH c0 nq (p ++ [i]) hsub
            have hp : (p ++ [i]) ++ q' = p ++ (i + 0) :: q' := by simp
            rw [hp] at hIH
            exact hIH
          have h2 : (lockdownChildren dm fm rest p (i + 1)).filter
              (pathFilter (p ++ (i + 0) :: q')) = [] := by
            rw [List.filter_eq_nil_iff]
            intro e he
            obtain ⟨j', r, hj', hr⟩ := lockdownChildren_ext dm fm rest p (i + 1) e he
            simp only [pathFilter, hr, decide_eq_true_eq]
            exact append_cons_ne p r q' (by omega)
          rw [h1, h2, List.append_nil]
      | succ j' =>
          have hg' : rest.get? j' = some c := by simpa using hg
          have h1 : (lockdownTrace dm fm c0 (p ++ [i])).filter
              (pathFilter (p ++ (i + (j' + 1)) :: q')) = [] := by
            rw [List.filter_eq_nil_iff]
            intro e he
            obtain ⟨r, hr⟩ := lockdownTrace_ext dm fm c0 (p ++ [i]) e he
            have hr' : e.pathOf = p ++ i :: r := by
              rw [hr]; simp
            simp only [pathFilter, hr', decide_eq_true_eq]
            exact append_cons_ne p r q' (by omega)
          have h2 := ih j' c nq p (i + 1) hg' hsub
          have harith : i + 1 + j' = i + (j' + 1) := by omega
          rw [harith] at h2
          rw [h1, h2, List.nil_append]

/-- The events of the lockdown trace that act on the node at `p ++ q` are
exactly the four `nodeEvents` of that node, in order: temporary mode,
temporary (operating) ownership, final mode, final (service) ownership. -/
theorem lockdownTrace_filter (dm fm : Nat) :
    ∀ (q : List Nat) (t nq : FsTree) (p : List Nat),
      subtreeAt? q t = some nq →
      (lockdownTrace dm fm t p).filter (pathFilter (p ++ q)) =
        nodeEvents dm fm (p ++ q) nq := by
  intro q
  induction q with
  | nil =>
      intro t nq p h
      obtain rfl : t = nq := by simpa [subtreeAt?] using h
      simp only [List.append_nil]
      cases t with
      | fileN =>
          simp [lockdownTrace, nodeEvents, pathFilter, FsEvent.pathOf,
            nodeTempMode, nodeFinalMode]
      | dirN cs =>
          rw [lockdownTrace, List.filter_append, List.filter_append]
          have hch : (lockdownChildren dm fm cs p 0).filter (pathFilter p) = [] := by
            rw [List.filter_eq_nil_iff]
            intro e he
            obtain ⟨j, r, _, hr⟩ := lockdownChildren_ext dm fm cs p 0 e he
            simp only [pathFilter, hr, decide_eq_true_eq]
            intro hx
            exact ne_append_cons p j r hx.symm
          rw [hch]
          simp [nodeEvents, pathFilter, FsEvent.pathOf, nodeTempMode, nodeFinalMode]
  | cons i q' ih =>
      intro t nq p h
      cases t with
      | fileN => simp [subtreeAt?] at h
      | dirN cs =>
          rw [subtreeAt?] at h
          rcases hg : cs.get? i with _ | c
          · rw [hg] at h; exact absurd h (by simp)
          · rw [hg] at h
            rw [lockdownTrace, List.filter_append, List.filter_append]
            have hnep := ne_append_cons p i q'
            have htemp : ([FsEvent.setPerm p 0o700,
                FsEvent.chownTo p Owner.operating]).filter
                (pathFilter (p ++ i :: q')) = [] := by
              simp [pathFilter, FsEvent.pathOf, hnep]
            have hfin : ([FsEvent.setPerm p dm,
                FsEvent.chownTo p Owner.service]).filter
                (pathFilter (p ++ i :: q')) = [] := by
              simp [pathFilter, FsEvent.pathOf, hnep]
            have hch := lockdownChildren_filter_of dm fm q' ih cs i c nq p 0 hg h
            have h0 : (0 : Nat) + i = i := by omega
            rw [h0] at hch
            rw [htemp, hfin, hch, List.nil_append, List.append_nil]

theorem lockdownChildren_mem_lift (dm fm : Nat) :
    ∀ (cs : List FsTree) (j : Nat) (c : FsTree) (p : List Nat) (i : Nat),
      cs.get? j = some c →
      ∀ e ∈ lockdownTrace dm fm c (p ++ [i + j]), e ∈ lockdownChildren dm fm cs p i := by
  intro cs
  induction cs with
  | nil => intro j c p i hg; simp at hg
  | cons c0 rest ih =>
      intro j c p i hg e he
      rw [lockdownChildren]
      cases j with
      | zero =>
          obtain rfl : c0 = c := by simpa using hg
          exact List.mem_append.mpr (Or.inl (by simpa using he))
      | succ j' =>
          have hg' : rest.get? j' = some c := by simpa using hg
          have harith : i + (j' + 1) = i + 1 + j' := by omega
          rw [harith] at he
          exact List.mem_append.mpr (Or.inr (ih j' c p (i + 1) hg' e he))

/-- Each node's final chown-to-service and final chmod events occur in the
lockdown trace of any enclosing subtree. -/
theorem lockdownTrace_mem_final (dm fm : Nat) :
    ∀ (q : List Nat) (t nq : FsTree) (p : List Nat),
      subtreeAt? q t = some nq →
      FsEvent.chownTo (p ++ q) Owner.service ∈ lockdownTrace dm fm t p ∧
      FsEvent.setPerm (p ++ q) (nodeFinalMode dm fm nq) ∈ lockdownTrace dm fm t p := by
  intro q
  induction q with
  | nil =>
      intro t nq p h
      obtain rfl : t = nq := by simpa [subtreeAt?] using h
      cases t <;> simp [lockdownTrace, nodeFinalMode]
  | cons i q' ih =>
      intro t nq p h
      cases t with
      | fileN => simp [subtreeAt?] at h
      | dirN cs =>
          rw [subtreeAt?] at h
          rcases hg : cs.get? i with _ | c
          · rw [hg] at h; exact absurd h (by simp)
          · rw [hg] at h
            obtain ⟨h1, h2⟩ := ih c nq (p ++ [i]) h
            have hp : (p ++ [i]) ++ q' = p ++ i :: q' := by simp
            rw [hp] at h1 h2
            have hz : p ++ [i] = p ++ [0 + i] := by norm_num
            rw [hz] at h1 h2
            have hm1 := lockdownChildren_mem_lift dm fm cs i c p 0 hg _ h1
            have hm2 := lockdownChildren_mem_lift dm fm cs i c p 0 hg _ h2
            rw [lockdownTrace]
            exact ⟨List.mem_append.mpr (Or.inl (List.mem_append.mpr (Or.inr hm1))),
                   List.mem_append.mpr (Or.inl (List.mem_append.mpr (Or.inr hm2)))⟩

theorem lockdownChildren_contig (dm fm : Nat) :
    ∀ (cs : List FsTree) (j : Nat) (c : FsTree) (p : List Nat) (i : Nat),
      cs.get? j = some c →
      ∃ l1 l2, lockdownChildren dm fm cs p i =
        l1 ++ lockdownTrace dm fm c (p ++ [i + j]) ++ l2 := by
  intro cs
  induction cs with
  | nil => intro j c p i hg; simp at hg
  | cons c0 rest ih =>
      intro j c p i hg
      rw [lockdownChildren]
      cases j with
      | zero =>
          obtain rfl : c0 = c := by simpa using hg
          exact ⟨[], lockdownChildren dm fm rest p (i + 1), by simp⟩
      | succ j' =>
          obtain ⟨l1, l2, hl⟩ := ih j' c p (i + 1) (by simpa using hg)
          refine ⟨lockdownTrace dm fm c0 (p ++ [i]) ++ l1, l2, ?_⟩
          have harith : i + (j' + 1) = i + 1 + j' := by omega
          rw [harith, hl]
          simp [List.append_assoc]

/-- The lockdown trace of a subtree occurs contiguously inside the lockdown
trace of any enclosing tree. -/
theorem lockdownTrace_contig (dm fm : Nat) :
    ∀ (d : List Nat) (t nd : FsTree) (p : List Nat),
      subtreeAt? d t = some nd →
      ∃ l1 l2, lockdownTrace dm fm t p =
        l1 ++ lockdownTrace dm fm nd (p ++ d) ++ l2 := by
  intro d
  induction d with
  | nil =>
      intro t nd p h
      obtain rfl : t = nd := by simpa [subtreeAt?] using h
      exact ⟨[], [], by simp⟩
  | cons i d' ih =>
      intro t nd p h
      cases t with
      | fileN => simp [subtreeAt?] at h
      | dirN cs =>
          rw [subtreeAt?] at h
          rcases hg : cs.get? i with _ | c
          · rw [hg] at h; exact absurd h (by simp)
          · rw [hg] at h
            obtain ⟨a, b, hab⟩ := lockdownChildren_contig dm fm cs i c p 0 hg
            obtain ⟨a', b', hab'⟩ := ih c nd (p ++ [i]) h
            have h0 : (0 : Nat) + i = i := by omega
            rw [h0] at hab
            have hp : (p ++ [i]) ++ d' = p ++ i :: d' := by simp
            rw [hp] at hab'
            refine ⟨[FsEvent.setPerm p 0o700, FsEvent.chownTo p Owner.operating] ++ a ++ a',
                    b' ++ b ++ [FsEvent.setPerm p dm, FsEvent.chownTo p Owner.service], ?_⟩
            rw [lockdownTrace, hab, hab']
            simp [List.append_assoc]

/-- Subtree lookup composes along path concatenation. -/
theorem subtreeAt?_append :
    ∀ (d q : List Nat) (t : FsTree),
      subtreeAt? (d ++ q) t = (subtreeAt? d t).bind (subtreeAt? q) := by
  intro d
  induction d with
  | nil => intro q t; simp [subtreeAt?]
  | cons i d' ih =>
      intro q t
      cases t with
      | fileN => simp [subtreeAt?]
      | dirN cs =>
          rw [List.cons_append, subtreeAt?, subtreeAt?]
          rcases hg : cs.get? i with _ | c
          · simp
          · exact ih q c

/-- C1: in the effect trace of `set_permissions_recursive` on a tree, every
directory `d` first receives the temporary events (chmod `0o700`, chown to the
operating identity); the final events of every strict descendant `q` (chmod to
its final mode, chown to the service identity) lie strictly between them and
`d`'s final events (chmod `dir_mode`, chown service), which come last. The two
filter equations pin uniqueness: the trace contains exactly the four listed
events for `d` (and for `q`), in that order, so an ancestor never carries its
final restrictive mode and service ownership while a strict descendant has not
yet received its final mode and ownership. -/
theorem c1_lockdown_postorder (dm fm : Nat) (t : FsTree) (d q : List Nat)
    (cs : List FsTree) (nq : FsTree)
    (hd : subtreeAt? d t = some (FsTree.dirN cs))
    (hq : subtreeAt? q t = some nq)
    (hpre : d <+: q) (hne : d ≠ q) :
    ∃ l1 mid l2,
      lockdownTrace dm fm t [] =
        l1 ++ [FsEvent.setPerm d 0o700, FsEvent.chownTo d Owner.operating] ++ mid
          ++ [FsEvent.setPerm d dm, FsEvent.chownTo d Owner.service] ++ l2 ∧
      FsEvent.chownTo q Owner.service ∈ mid ∧
      FsEvent.setPerm q (nodeFinalMode dm fm nq) ∈ mid ∧
      (lockdownTrace dm fm t []).filter (pathFilter d) =
        nodeEvents dm fm d (FsTree.dirN cs) ∧
      (lockdownTrace dm fm t []).filter (pathFilter q) =
        nodeEvents dm fm q nq := by
  obtain ⟨q0, rfl⟩ : ∃ q0, q = d ++ q0 := by
    obtain ⟨q0, hq0⟩ := hpre
    exact ⟨q0, hq0.symm⟩
  have hq0ne : q0 ≠ [] := by
    rintro rfl
    exact hne (by simp)
  -- the subtree lookup composes: q0 is a valid position inside the directory
  have hsub : subtreeAt? q0 (FsTree.dirN cs) = some nq := by
    have := subtreeAt?_append d q0 t
    rw [hq, hd] at this
    simpa using this.symm
  -- split the whole trace around the directory's own trace
  obtain ⟨l1, l2, hsplit⟩ := lockdownTrace_contig dm fm d t (FsTree.dirN cs) [] hd
  rw [List.nil_append] at hsplit
  -- the descendant's final events sit inside the children section
  obtain ⟨j, q', rfl⟩ : ∃ j q', q0 = j :: q' := by
    cases q0 with
    | nil => exact absurd rfl hq0ne
    | cons j q' => exact ⟨j, q', rfl⟩
  rw [subtreeAt?] at hsub
  rcases hg : cs.get? j with _ | c
  · rw [hg] at hsub; exact absurd hsub (by simp)
  · rw [hg] at hsub
    obtain ⟨hm1, hm2⟩ := lockdownTrace_mem_final dm fm q' c nq (d ++ [j]) hsub
    have hp : (d ++ [j]) ++ q' = d ++ j :: q' := by simp
    rw [hp] at hm1 hm2
    have hz : d ++ [j] = d ++ [0 + j] := by norm_num
    rw [hz] at hm1 hm2
    have hmid1 := lockdownChildren_mem_lift dm fm cs j c d 0 hg _ hm1
    have hmid2 := lockdownChildren_mem_lift dm fm cs j c d 0 hg _ hm2
    refine ⟨l1, lockdownChildren dm fm cs d 0, l2, ?_, hmid1, hmid2, ?_, ?_⟩
    · rw [hsplit, lockdownTrace]
      simp [List.append_assoc]
    · have := lockdownTrace_filter dm fm d t (FsTree.dirN cs) [] hd
      simpa using this
    · have := lockdownTrace_filter dm fm (d ++ j :: q') t nq [] ?_
      · simpa using this
      · rw [subtreeAt?_append, hd]
        have hg' : cs[j]? = some c := by simpa [List.get?_eq_getElem?] using hg
        simpa [subtreeAt?, hg'] using hsub

/-- Witness for C1: the root directory of the tree `dir [file]` and its single
child. -/
theorem c1_lockdown_postorder_witness :
    ∃ l1 mid l2,
      lockdownTrace 0o750 0o640 (FsTree.dirN [FsTree.fileN]) [] =
        l1 ++ [FsEvent.setPerm [] 0o700, FsEvent.chownTo [] Owner.operating] ++ mid
          ++ [FsEvent.setPerm [] 0o750, FsEvent.chownTo [] Owner.service] ++ l2 ∧
      FsEvent.chownTo [0] Owner.service ∈ mid ∧
      FsEvent.setPerm [0] (nodeFinalMode 0o750 0o640 FsTree.fileN) ∈ mid ∧
      (lockdownTrace 0o750 0o640 (FsTree.dirN [FsTree.fileN]) []).filter
        (pathFilter []) = nodeEvents 0o750 0o640 [] (FsTree.dirN [FsTree.fileN]) ∧
      (lockdownTrace 0o750 0o640 (FsTree.dirN [FsTree.fileN]) []).filter
        (pathFilter [0]) = nodeEvents 0o750 0o640 [0] FsTree.fileN :=
  c1_lockdown_postorder 0o750 0o640 (FsTree.dirN [FsTree.fileN]) [] [0]
    [FsTree.fileN] FsTree.fileN rfl rfl ⟨[0], rfl⟩ (by decide)

/-! ### Permission/ownership state for C4 -/

/-- Mode and owner of each node, by path. -/
def FsState := List Nat → Nat × Owner

/-- Apply one chmod/chown event to the state. -/
def applyEvent (s : FsState) : FsEvent → FsState
  | .setPerm p m => fun q => if q = p then (m, (s q).2) else s q
  | .chownTo p o => fun q => if q = p then ((s q).1, o) else s q

/-- Apply a trace of events, left to right. -/
def applyTrace (s : FsState) : List FsEvent → FsState
  | [] => s
  | e :: rest => applyTrace (applyEvent s e) rest

/-- Apply, to one node's mode/owner pair, the events assumed to act on it. -/
def applyAt (v : Nat × Owner) : List FsEvent → Nat × Owner
  | [] => v
  | .setPerm _ m :: rest => applyAt (m, v.2) rest
  | .chownTo _ o :: rest => applyAt (v.1, o) rest

theorem applyTrace_eq_applyAt (l : List FsEvent) :
    ∀ (s : FsState) (q : List Nat),
      applyTrace s l q = applyAt (s q) (l.filter (pathFilter q)) := by
  induction l with
  | nil => intro s q; rfl
  | cons e rest ih =>
      intro s q
      rw [applyTrace, ih]
      cases e with
      | setPerm p m =>
          rw [List.filter_cons]
          by_cases hq : q = p
          · subst hq
            simp [pathFilter, FsEvent.pathOf, applyEvent, applyAt]
          · have hqp : ¬(p = q) := fun hx => hq hx.symm
            simp [pathFilter, FsEvent.pathOf, applyEvent, hq, hqp]
      | chownTo p o =>
          rw [List.filter_cons]
          by_cases hq : q = p
          · subst hq
            simp [pathFilter, FsEvent.pathOf, applyEvent, applyAt]
          · have hqp : ¬(p = q) := fun hx => hq hx.symm
            simp [pathFilter, FsEvent.pathOf, applyEvent, hq, hqp]

/-- State after `set_permissions_recursive` (lockdown) followed by the
privilege-restoring step of `remove_file_with_access` (reclaim) on the same
tree, rooted at the empty path. -/
def lockdownThenReclaim (dm fm : Nat) (t : FsTree) (s : FsState) : FsState :=
  applyTrace s (lockdownTrace dm fm t [] ++ reclaimTrace [])

/-- C4 counterexample: on the tree `dir [file]` with the code's modes
(`dir_mode = 0o750`, `file_mode = 0o640`), lockdown followed by reclaim leaves
the child file at mode `0o640` under service ownership — not mode `0o700`
under operating ownership as the claim states for every entry, because
`remove_file_with_access` chowns/chmods only the root path it is given. -/
theorem c4_counterexample :
    lockdownThenReclaim 0o750 0o640 (FsTree.dirN [FsTree.fileN])
      (fun _ => (0, Owner.operating)) [0] = (0o640, Owner.service) ∧
    lockdownThenReclaim 0o750 0o640 (FsTree.dirN [FsTree.fileN])
      (fun _ => (0, Owner.operating)) [0] ≠ (0o700, Owner.operating) := by
  constructor <;> decide

/-- C4 (amended): lockdown followed by reclaim restores operating-identity
ownership and mode `0o700` on the root entry only; every strict descendant
keeps its lockdown-final mode (`dir_mode`/`file_mode`) and service ownership
until `remove_dir_all` deletes it, because `remove_file_with_access`
(src/main.rs:297-311) applies its chown and chmod only to the single path it
is given and never recurses. -/
theorem c4_reclaim_root_only (dm fm : Nat) (t : FsTree) (s0 : FsState)
    (q : List Nat) (nq : FsTree) (hq : subtreeAt? q t = some nq) :
    (q = [] → lockdownThenReclaim dm fm t s0 q = (0o700, Owner.operating)) ∧
    (q ≠ [] → lockdownThenReclaim dm fm t s0 q =
      (nodeFinalMode dm fm nq, Owner.service)) := by
  have key : lockdownThenReclaim dm fm t s0 q =
      applyAt (s0 q) ((lockdownTrace dm fm t []).filter (pathFilter q)
        ++ (reclaimTrace []).filter (pathFilter q)) := by
    rw [lockdownThenReclaim, applyTrace_eq_applyAt, List.filter_append]
  have hq0 := lockdownTrace_filter dm fm q t nq [] hq
  rw [List.nil_append] at hq0
  constructor
  · rintro rfl
    rw [key, hq0]
    have hr : (reclaimTrace []).filter (pathFilter ([] : List Nat)) =
        reclaimTrace [] := by
      simp [reclaimTrace, pathFilter, FsEvent.pathOf]
    rw [hr]
    cases nq <;> rfl
  · intro hne
    rw [key, hq0]
    have hr : (reclaimTrace []).filter (pathFilter q) = [] := by
      have hne' : ¬(([] : List Nat) = q) := fun hx => hne hx.symm
      simp [reclaimTrace, pathFilter, FsEvent.pathOf, hne']
    rw [hr, List.append_nil]
    cases nq <;> rfl

/-- Witness for C4 (amended) at the concrete tree `dir [file]`. -/
theorem c4_reclaim_root_only_witness :
    (([0] : List Nat) = [] →
      lockdownThenReclaim 0o750 0o640 (FsTree.dirN [FsTree.fileN])
        (fun _ => (0, Owner.operating)) [0] = (0o700, Owner.operating)) ∧
    (([0] : List Nat) ≠ [] →
      lockdownThenReclaim 0o750 0o640 (FsTree.dirN [FsTree.fileN])
        (fun _ => (0, Owner.operating)) [0] =
        (nodeFinalMode 0o750 0o640 FsTree.fileN, Owner.service)) :=
  c4_reclaim_root_only 0o750 0o640 (FsTree.dirN [FsTree.fileN])
    (fun _ => (0, Owner.operating)) [0] FsTree.fileN rfl

/-! ## Filename sanitization: `sanitize_filename` (src/commands.rs:188-214) -/

/-- Substring test, embedding Rust `str::contains` with a string pattern. -/
def containsSub : List Char → List Char → Bool
  | [], needle => needle.isEmpty
  | c :: rest, needle => needle.isPrefixOf (c :: rest) || containsSub rest needle

/-- Rust `char::is_whitespace`: the Unicode `White_Space` property —
U+0009 – U+000D, U+0020, U+0085, U+00A0, U+1680, U+2000 – U+200A, U+2028,
U+2029, U+202F, U+205F and U+3000. Note that U+0009 – U+000D and U+0085 are
also control characters (category `Cc`). -/
def isRustWhitespace (c : Char) : Bool :=
  (0x09 ≤ c.toNat && c.toNat ≤ 0x0D) || c.toNat = 0x20 ||
  c.toNat = 0x85 || c.toNat = 0xA0 || c.toNat = 0x1680 ||
  (0x2000 ≤ c.toNat && c.toNat ≤ 0x200A) || c.toNat = 0x2028 ||
  c.toNat = 0x2029 || c.toNat = 0x202F || c.toNat = 0x205F ||
  c.toNat = 0x3000

/-- Rust `str::trim`: remove `White_Space` characters from both ends. -/
def rustTrim (l : List Char) : List Char :=
  ((l.dropWhile isRustWhitespace).reverse.dropWhile isRustWhitespace).reverse

/-- Rust `char::is_control`: the Unicode `Cc` category,
U+0000 – U+001F and U+007F – U+009F. -/
def isCtrlChar (c : Char) : Bool :=
  c.toNat < 0x20 || (0x7f ≤ c.toNat && c.toNat ≤ 0x9f)

/-- The reserved punctuation rejected by `sanitize_filename`. -/
def badPunct (c : Char) : Bool :=
  c = '<' || c = '>' || c = ':' || c = '"' || c = '|' || c = '?' || c = '*'

/-- Embedding of `sanitize_filename` (src/commands.rs:188-214) on the
character list of its argument: trim, reject empty, reject `/` `\` `..`,
strip leading dots (rejecting if nothing remains), reject control characters
and reserved punctuation, and return the remaining name. Error payloads are
the code's `anyhow!` messages. -/
def sanitize_filename (l : List Char) : Except String (List Char) :=
  let name := rustTrim l
  if name = [] then
    .error "Empty filename not allowed"
  else if name.contains '/' || name.contains '\\' || containsSub name ['.', '.'] then
    .error "Invalid characters in filename"
  else
    let name2 := name.dropWhile (fun c => c = '.')
    if name2 = [] then
      .error "Invalid filename (hidden files not allowed)"
    else if name2.any (fun c => isCtrlChar c || badPunct c) then
      .error "Invalid characters in filename"
    else
      .ok name2

theorem dropWhile_head_not (p : Char → Bool) :
    ∀ (l : List Char) (c : Char) (rest : List Char),
      l.dropWhile p = c :: rest → p c = false := by
  intro l
  induction l with
  | nil => intro c rest h; simp [List.dropWhile] at h
  | cons a l ih =>
      intro c rest h
      rw [List.dropWhile_cons] at h
      by_cases ha : p a
      · rw [if_pos ha] at h
        exact ih c rest h
      · rw [if_neg ha] at h
        injection h with h1 _
        rw [h1] at ha
        exact Bool.of_not_eq_true ha

theorem mem_of_mem_dropWhile (p : Char → Bool) :
    ∀ (l : List Char) (c : Char), c ∈ l.dropWhile p → c ∈ l := by
  intro l
  induction l with
  | nil => intro c h; simp [List.dropWhile] at h
  | cons a l ih =>
      intro c h
      rw [List.dropWhile_cons] at h
      by_cases ha : p a
      · rw [if_pos ha] at h
        exact List.mem_cons_of_mem a (ih c h)
      · rw [if_neg ha] at h
        exact h

theorem mem_dropWhile_of_not (p : Char → Bool) :
    ∀ (l : List Char) (c : Char), c ∈ l → p c = false → c ∈ l.dropWhile p := by
  intro l
  induction l with
  | nil => intro c h _; simp at h
  | cons a rest ih =>
      intro c h hp
      rw [List.dropWhile_cons]
      by_cases ha : p a = true
      · rw [if_pos ha]
        rcases List.mem_cons.mp h with rfl | h'
        · rw [hp] at ha
          exact absurd ha Bool.false_ne_true
        · exact ih c h' hp
      · rw [if_neg ha]
        exact h

/-- C3 counterexample: the filename `".foo"` has a leading dot (after
trimming), yet `sanitize_filename` succeeds, stripping the dot; and the
filename `"a\t"` contains the control character `'\t'` (U+0009, category
`Cc`), yet also succeeds — the tab is surrounding whitespace, so `str::trim`
removes it before the control-character check runs. Both the leading-dot
clause and the control-character clause of the claim fail on the code. -/
theorem c3_counterexample :
    sanitize_filename ['.', 'f', 'o', 'o'] = .ok ['f', 'o', 'o'] ∧
    isCtrlChar '\t' = true ∧
    sanitize_filename ['a', '\t'] = .ok ['a'] :=
  ⟨rfl, rfl, rfl⟩

/-- C3 (amended): a filename whose whitespace-trimmed form contains `/`, `\`
or `..` is rejected, and a control character that remains after whitespace
trimming is rejected; but a control character that is surrounding whitespace
(such as a trailing tab) is trimmed away rather than rejected, and a leading
dot is not rejected — it is stripped (failing only when nothing remains) —
so any successfully stored name is nonempty, has no leading dot (never a
hidden-file name), and contains no `/`, `\` or control characters. -/
theorem c3_sanitize_amended (l : List Char) :
    (('/' ∈ rustTrim l ∨ '\\' ∈ rustTrim l ∨
        containsSub (rustTrim l) ['.', '.'] = true) →
      (sanitize_filename l).isOk = false) ∧
    ((∃ c ∈ rustTrim l, isCtrlChar c = true) →
      (sanitize_filename l).isOk = false) ∧
    (∀ out, sanitize_filename l = .ok out →
      out ≠ [] ∧ out.head? ≠ some '.' ∧ '/' ∉ out ∧ '\\' ∉ out ∧
      (∀ c ∈ out, isCtrlChar c = false)) := by
  refine ⟨?_, ?_, ?_⟩
  · intro hbad
    by_cases h0 : rustTrim l = []
    · rw [h0] at hbad
      rcases hbad with h | h | h <;> simp [containsSub, List.isEmpty] at h
    · have hcond : ((rustTrim l).contains '/' || (rustTrim l).contains '\\' ||
          containsSub (rustTrim l) ['.', '.']) = true := by
        rcases hbad with h | h | h
        · have hx : (rustTrim l).contains '/' = true := List.elem_eq_true_of_mem h
          rw [hx]
          rfl
        · have hx : (rustTrim l).contains '\\' = true := List.elem_eq_true_of_mem h
          rw [hx, Bool.or_true, Bool.true_or]
        · rw [h, Bool.or_true]
      simp only [sanitize_filename]
      rw [if_neg h0, if_pos hcond]
      rfl
  · intro hctl
    obtain ⟨c, hc, hctlc⟩ := hctl
    -- a control character is not a dot, so it survives leading-dot stripping
    have hc' : c ∈ (rustTrim l).dropWhile (fun c => c = '.') := by
      apply mem_dropWhile_of_not _ (rustTrim l) c hc
      show decide (c = '.') = false
      have hne : c ≠ '.' := by
        intro hx
        rw [hx] at hctlc
        exact absurd hctlc (by decide)
      simp [hne]
    by_cases h0 : rustTrim l = []
    · rw [h0] at hc
      simp at hc
    · by_cases h1 : ((rustTrim l).contains '/' || (rustTrim l).contains '\\' ||
          containsSub (rustTrim l) ['.', '.']) = true
      · simp only [sanitize_filename]
        rw [if_neg h0, if_pos h1]
        rfl
      · have hany : ((rustTrim l).dropWhile (fun c => c = '.')).any
            (fun c => isCtrlChar c || badPunct c) = true :=
          List.any_eq_true.mpr ⟨c, hc', by simp [hctlc]⟩
        have h2 : ¬((rustTrim l).dropWhile (fun c => c = '.') = []) := by
          intro hx
          rw [hx] at hc'
          simp at hc'
        simp only [sanitize_filename]
        rw [if_neg h0, if_neg h1, if_neg h2, if_pos hany]
        rfl
  · intro out hout
    simp only [sanitize_filename] at hout
    by_cases h0 : rustTrim l = []
    · rw [if_pos h0] at hout
      exact absurd hout (by simp)
    · rw [if_neg h0] at hout
      by_cases h1 : ((rustTrim l).contains '/' || (rustTrim l).contains '\\' ||
          containsSub (rustTrim l) ['.', '.']) = true
      · rw [if_pos h1] at hout
        exact absurd hout (by simp)
      · rw [if_neg h1] at hout
        by_cases h2 : (rustTrim l).dropWhile (fun c => c = '.') = []
        · rw [if_pos h2] at hout
          exact absurd hout (by simp)
        · rw [if_neg h2] at hout
          by_cases h3 : ((rustTrim l).dropWhile (fun c => c = '.')).any
              (fun c => isCtrlChar c || badPunct c) = true
          · rw [if_pos h3] at hout
            exact absurd hout (by simp)
          · rw [if_neg h3] at hout
            obtain rfl : (rustTrim l).dropWhile (fun c => c = '.') = out := by
              simpa using hout
            simp only [Bool.or_eq_true, not_or] at h1
            refine ⟨h2, ?_, ?_, ?_, ?_⟩
            · intro hhd
              rcases hh : (rustTrim l).dropWhile (fun c => c = '.') with _ | ⟨c, rest⟩
              · exact h2 hh
              · have hnotdot := dropWhile_head_not (fun c => c = '.')
                  (rustTrim l) c rest hh
                rw [hh] at hhd
                simp only [List.head?_cons, Option.some.injEq] at hhd
                rw [hhd] at hnotdot
                simp at hnotdot
            · intro hmem
              have hm := mem_of_mem_dropWhile _ _ _ hmem
              exact h1.1.1 (List.elem_eq_true_of_mem hm)
            · intro hmem
              have hm := mem_of_mem_dropWhile _ _ _ hmem
              exact h1.1.2 (List.elem_eq_true_of_mem hm)
            · intro c hc
              have hall := List.any_eq_true.not.mp h3
              push_neg at hall
              have hcc := hall c hc
              cases hic : isCtrlChar c
              · rfl
              · exact absurd (by simp [hic] : (isCtrlChar c || badPunct c) = true) hcc

/-- Witness for C3 (amended): `"a/b"` is rejected. -/
theorem c3_sanitize_amended_witness :
    (sanitize_filename ['a', '/', 'b']).isOk = false :=
  (c3_sanitize_amended ['a', '/', 'b']).1 (Or.inl (by decide))

/-! ## The base directory and the share ledger

`ShareInfo::share` / `ShareInfo::unshare` (src/main.rs:416-454) and
`FileShare::remove` (src/main.rs:376-411) mutate the base directory and the
SQLite `files` / `shares` tables. The base directory is an association list
of entry names; a symlink records its literal relative target (slink only
ever creates single-component targets — the identifier — for which Rust's
`Path::ends_with(uuid)` test on the `read_link` result coincides with string
equality of the target). `Utc::now()` is abstracted as a `Nat` supplied per
operation. -/

/-- One entry of the base directory. -/
inductive DirEntry
  | dirE : DirEntry
  | fileE : DirEntry
  | symE : String → DirEntry
deriving DecidableEq, Repr

/-- A `files` table row (`uuid, filename, date_added`). -/
structure FileRow where
  uuid : String
  filename : String
  date_added : Nat
deriving DecidableEq, Repr

/-- A `shares` table row
(`uuid, recipient, share_hash, date_shared, date_removed, active`). -/
structure ShareRow where
  uuid : String
  recipient : String
  share_hash : String
  date_shared : Nat
  date_removed : Option Nat
  active : Bool
deriving DecidableEq, Repr

/-- The shared durable state: base-directory entries plus the two tables. -/
structure StoreState where
  entries : List (String × DirEntry)
  files : List FileRow
  shares : List ShareRow
deriving DecidableEq, Repr

/-- First entry with the given name (the program never creates two entries
with one name). -/
def lookupE : List (String × DirEntry) → String → Option DirEntry
  | [], _ => none
  | (n, e) :: rest, k => if n = k then some e else lookupE rest k

/-- Remove every entry with the given name. -/
def eraseE : List (String × DirEntry) → String → List (String × DirEntry)
  | [], _ => []
  | (n, e) :: rest, k => if n = k then eraseE rest k else (n, e) :: eraseE rest k

/-- Rust `Path::exists()` on `base_dir/name`: it resolves symlinks, so a
dangling symlink (target entry absent) reports `false`. -/
def pathExists (entries : List (String × DirEntry)) (name : String) : Bool :=
  match lookupE entries name with
  | none => false
  | some (.symE t) => (lookupE entries t).isSome
  | some _ => true

/-- Is the entry at `name` a symlink (regardless of whether it resolves)? -/
def isSymlinkAt (entries : List (String × DirEntry)) (name : String) : Bool :=
  match lookupE entries name with
  | some (.symE _) => true
  | _ => false

/-- Embedding of `ShareInfo::share` (src/main.rs:416-435): compute the token,
remove the entry at `base_dir/<token>` if `source.exists()` (which follows
symlinks), create the relative symlink `<token> -> <uuid>` (EEXIST if an
entry remains), then `INSERT OR REPLACE` the `(uuid, recipient)` shares row
with `active = 1`; `date_removed` is not in the column list, so the replaced
row's revocation timestamp becomes NULL. -/
def ShareInfo.share (B : Blake3) (secret : String) (hash_bytes : Nat)
    (s : StoreState) (uuid recipient : String) (now : Nat) :
    Except String (StoreState × String) :=
  match calculate_share_hash B uuid recipient secret hash_bytes with
  | none => .error "panicked: range end index out of range"
  | some share_hash =>
    let removed : Except String (List (String × DirEntry)) :=
      if pathExists s.entries share_hash then
        match lookupE s.entries share_hash with
        | some .dirE => .error "Is a directory (os error 21)"
        | _ => .ok (eraseE s.entries share_hash)
      else
        .ok s.entries
    match removed with
    | .error e => .error e
    | .ok ents =>
      if (lookupE ents share_hash).isSome then
        .error "File exists (os error 17)"
      else
        .ok ({ s with
                entries := (share_hash, DirEntry.symE uuid) :: ents,
                shares := ⟨uuid, recipient, share_hash, now, none, true⟩ ::
                  s.shares.filter (fun r =>
                    !(r.uuid == uuid && r.recipient == recipient)) },
              share_hash)

/-- Embedding of `ShareInfo::unshare` (src/main.rs:438-454): recompute the
token, remove the symlink if `symlink.exists()` (which follows symlinks, so a
dangling link is skipped), then set `active = 0` and `date_removed` on the
still-active `(uuid, recipient)` row. -/
def ShareInfo.unshare (B : Blake3) (secret : String) (hash_bytes : Nat)
    (s : StoreState) (uuid recipient : String) (now : Nat) :
    Except String StoreState :=
  match calculate_share_hash B uuid recipient secret hash_bytes with
  | none => .error "panicked: range end index out of range"
  | some share_hash =>
    let removed : Except String (List (String × DirEntry)) :=
      if pathExists s.entries share_hash then
        match lookupE s.entries share_hash with
        | some .dirE => .error "Is a directory (os error 21)"
        | _ => .ok (eraseE s.entries share_hash)
      else
        .ok s.entries
    match removed with
    | .error e => .error e
    | .ok ents =>
      .ok { s with
            entries := ents,
            shares := s.shares.map (fun r =>
              if r.uuid = uuid ∧ r.recipient = recipient ∧ r.active then
                { r with active := false, date_removed := some now }
              else r) }

/-- The symlink sweep of `FileShare::remove` (src/main.rs:388-396):
`remove_file_with_access` is applied to every entry whose `read_link` target
ends with the uuid. Its `chown` follows the symlink, so it fails when such a
link is dangling (modelled as one up-front check; the code stops at the first
failing link, and no theorem below depends on a partially swept state). -/
def sweepSymlinks (entries : List (String × DirEntry)) (uuid : String) :
    Except String (List (String × DirEntry)) :=
  if entries.all (fun p => match p.2 with
      | .symE t => t != uuid || (lookupE entries t).isSome
      | _ => true) then
    .ok (entries.filter (fun p => match p.2 with
      | .symE t => t != uuid
      | _ => true))
  else
    .error "No such file or directory (os error 2)"

/-- Embedding of `FileShare::remove` (src/main.rs:376-411): unless the
confirmation is declined (silent no-op success), sweep all symlinks pointing
at the uuid, delete the directory `base_dir/<uuid>` (the `chown` of
`remove_file_with_access` fails if it is absent), set `active = 0` and
`date_removed` on every shares row of the uuid, and delete its files rows. -/
def FileShare.remove (s : StoreState) (uuid : String)
    (force answeredYes : Bool) (now : Nat) : Except String StoreState :=
  if !force && !answeredYes then
    .ok s
  else
    match sweepSymlinks s.entries uuid with
    | .error e => .error e
    | .ok ents =>
      if (lookupE ents uuid).isSome then
        .ok { entries := eraseE ents uuid,
              files := s.files.filter (fun f => f.uuid != uuid),
              shares := s.shares.map (fun r =>
                if r.uuid = uuid then
                  { r with active := false, date_removed := some now }
                else r) }
      else
        .error "No such file or directory (os error 2)"

/-- Embedding of `FileShare::find_by_uuid` (src/main.rs:358-374):
`SELECT ... FROM files WHERE uuid = ?`, first row if any. -/
def FileShare.find_by_uuid (files : List FileRow) (uuid : String) :
    Option FileRow :=
  files.find? (fun f => f.uuid == uuid)

/-! ### Operation sequences over the store -/

/-- The operations acting on the store. -/
inductive StoreOp
  | addOp (uuid filename : String)
  | shareOp (uuid recipient : String)
  | unshareOp (uuid recipient : String)
  | removeOp (uuid : String) (force : Bool)
deriving DecidableEq, Repr

/-- The store-level effect of `add_file` (src/commands.rs:148-186) for a
supplied identifier (the code draws a fresh v4-random uuid): create
`base/<uuid>` (`create_dir_all` succeeds on an existing directory, fails on a
non-directory entry) and insert the `files` row (fails on a uuid collision). -/
def storeAdd (s : StoreState) (uuid filename : String) (now : Nat) :
    Except String StoreState :=
  match lookupE s.entries uuid with
  | some .fileE => .error "File exists (os error 17)"
  | some (.symE _) => .error "File exists (os error 17)"
  | _ =>
    let ents := match lookupE s.entries uuid with
      | some .dirE => s.entries
      | _ => (uuid, DirEntry.dirE) :: s.entries
    if s.files.any (fun f => f.uuid == uuid) then
      .error "UNIQUE constraint failed: files.uuid"
    else
      .ok { entries := ents, files := ⟨uuid, filename, now⟩ :: s.files,
            shares := s.shares }

/-- Execute one operation at time `t`. `removeOp` goes through `remove_file`'s
`find_by_uuid` guard (the uuid given directly, as `resolve_file_spec` passes
uuid-shaped specs through) with the interactive confirmation answered yes. -/
def execOp (B : Blake3) (secret : String) (hash_bytes : Nat)
    (s : StoreState) (t : Nat) : StoreOp → Except String StoreState
  | .addOp uuid filename => storeAdd s uuid filename t
  | .shareOp uuid recipient =>
      (ShareInfo.share B secret hash_bytes s uuid recipient t).map (·.1)
  | .unshareOp uuid recipient =>
      ShareInfo.unshare B secret hash_bytes s uuid recipient t
  | .removeOp uuid force =>
      match FileShare.find_by_uuid s.files uuid with
      | none => .ok s
      | some _ => FileShare.remove s uuid force true t

/-- Run a sequence of operations, timestamping them `t, t+1, ...` and
stopping at the first error. -/
def runOps (B : Blake3) (secret : String) (hash_bytes : Nat) :
    StoreState → Nat → List StoreOp → Except String StoreState
  | s, _, [] => .ok s
  | s, t, op :: rest =>
      match execOp B secret hash_bytes s t op with
      | .error e => .error e
      | .ok s' => runOps B secret hash_bytes s' (t + 1) rest

/-- The invariant claimed for the share ledger: an active shares row has a
live symlink named by its token, an inactive row has none. -/
def claimInvariant (s : StoreState) : Prop :=
  ∀ r ∈ s.shares,
    (r.active = true → isSymlinkAt s.entries r.share_hash = true) ∧
    (r.active = false → isSymlinkAt s.entries r.share_hash = false)

/-- A well-formed 36-character identifier used in concrete runs. -/
def uuidA : String := "00000000-0000-0000-0000-000000000001"

/-- C7 counterexample: the sequence add, share, remove, share, unshare on one
identifier and recipient leaves the shares row inactive while the symlink
named by its token still exists. The second share re-creates the link as a
dangling symlink (the identifier's directory was removed), and unshare's
`symlink.exists()` follows the dangling link, reports `false`, and skips the
removal — so `active = false` coexists with a present symlink, violating the
claimed invariant. -/
theorem c7_counterexample :
    runOps zeroBlake3 "secret" 7 ⟨[], [], []⟩ 0
      [.addOp uuidA "a.txt", .shareOp uuidA "bob", .removeOp uuidA true,
       .shareOp uuidA "bob", .unshareOp uuidA "bob"] =
      .ok ⟨[("AAAAAAAAAA", DirEntry.symE uuidA)], [],
           [⟨uuidA, "bob", "AAAAAAAAAA", 3, some 4, false⟩]⟩ ∧
    ¬ claimInvariant ⟨[("AAAAAAAAAA", DirEntry.symE uuidA)], [],
           [⟨uuidA, "bob", "AAAAAAAAAA", 3, some 4, false⟩]⟩ := by
  constructor
  · rfl
  · intro h
    have := (h ⟨uuidA, "bob", "AAAAAAAAAA", 3, some 4, false⟩ (by simp)).2 rfl
    simp [isSymlinkAt, lookupE] at this

/-- C5: with a dangling symlink occupying `base_dir/<token>` (its target
identifier directory no longer resolves), `ShareInfo::share` fails with
EEXIST instead of replacing the entry: `source.exists()` follows the dangling
link, reports `false`, the removal step is skipped, and `unix_symlink` hits
the existing entry. -/
theorem c5_dangling_replace_fails :
    ShareInfo.share zeroBlake3 "secret" 7
      ⟨[("AAAAAAAAAA", DirEntry.symE uuidA)], [], []⟩ uuidA "bob" 0 =
      .error "File exists (os error 17)" := rfl

theorem mem_of_mem_eraseE :
    ∀ (l : List (String × DirEntry)) (k : String) (p : String × DirEntry),
      p ∈ eraseE l k → p ∈ l := by
  intro l k p
  induction l with
  | nil => intro h; simp [eraseE] at h
  | cons a rest ih =>
      obtain ⟨n, e⟩ := a
      intro h
      rw [eraseE] at h
      by_cases hn : n = k
      · rw [if_pos hn] at h
        exact List.mem_cons_of_mem _ (ih h)
      · rw [if_neg hn] at h
        rcases List.mem_cons.mp h with rfl | h'
        · exact List.mem_cons_self _ _
        · exact List.mem_cons_of_mem _ (ih h')

theorem lookupE_eraseE_self :
    ∀ (l : List (String × DirEntry)) (k : String),
      lookupE (eraseE l k) k = none := by
  intro l k
  induction l with
  | nil => rfl
  | cons a rest ih =>
      obtain ⟨n, e⟩ := a
      rw [eraseE]
      by_cases hn : n = k
      · rw [if_pos hn]
        exact ih
      · rw [if_neg hn, lookupE, if_neg hn]
        exact ih

theorem lookupE_filter (pred : String × DirEntry → Bool) :
    ∀ (l : List (String × DirEntry)) (k : String) (e : DirEntry),
      lookupE l k = some e → pred (k, e) = true →
      lookupE (l.filter pred) k = some e := by
  intro l
  induction l with
  | nil => intro k e h; simp [lookupE] at h
  | cons a rest ih =>
      obtain ⟨n, e'⟩ := a
      intro k e h hp
      rw [lookupE] at h
      by_cases hn : n = k
      · rw [if_pos hn] at h
        obtain rfl : e' = e := by simpa using h
        subst hn
        rw [List.filter_cons, if_pos hp, lookupE, if_pos rfl]
      · rw [if_neg hn] at h
        rw [List.filter_cons]
        by_cases hq : pred (n, e') = true
        · rw [if_pos hq, lookupE, if_neg hn]
          exact ih k e h hp
        · rw [if_neg hq]
          exact ih k e h hp

/-- C6: a confirmed remove (force set, or the operator answering yes) of a
stored identifier (its directory entry exists) succeeds and leaves a state
with no symlink whose target resolves to the identifier (even for tokens that
were never unshared), no `base/<uuid>` entry, every shares row of the
identifier inactive with the removal timestamp as its non-null
`date_removed`, and no files row for the identifier. -/
theorem c6_remove_complete (s : StoreState) (uuid : String)
    (force answeredYes : Bool) (now : Nat)
    (hconf : (force || answeredYes) = true)
    (hdir : lookupE s.entries uuid = some DirEntry.dirE) :
    ∃ s', FileShare.remove s uuid force answeredYes now = .ok s' ∧
      (∀ n t, (n, DirEntry.symE t) ∈ s'.entries → t ≠ uuid) ∧
      lookupE s'.entries uuid = none ∧
      (∀ r ∈ s'.shares, r.uuid = uuid →
        r.active = false ∧ r.date_removed = some now) ∧
      (∀ f ∈ s'.files, f.uuid ≠ uuid) := by
  have hnotdecl : (!force && !answeredYes) = false := by
    cases force <;> cases answeredYes <;> simp_all
  have hsweepOk : (s.entries.all (fun p => match p.2 with
      | .symE t => t != uuid || (lookupE s.entries t).isSome
      | _ => true)) = true := by
    rw [List.all_eq_true]
    rintro ⟨n, e⟩ hp
    cases e with
    | dirE => rfl
    | fileE => rfl
    | symE t =>
        show (t != uuid || (lookupE s.entries t).isSome) = true
        by_cases ht : t = uuid
        · subst ht
          rw [hdir]
          simp
        · simp [ht]
  have hsweep : sweepSymlinks s.entries uuid =
      .ok (s.entries.filter (fun p => match p.2 with
        | .symE t => t != uuid
        | _ => true)) := by
    rw [sweepSymlinks, if_pos hsweepOk]
  have hlook : lookupE (s.entries.filter (fun p => match p.2 with
      | .symE t => t != uuid
      | _ => true)) uuid = some DirEntry.dirE :=
    lookupE_filter _ s.entries uuid DirEntry.dirE hdir rfl
  refine ⟨{ entries := eraseE (s.entries.filter (fun p => match p.2 with
               | .symE t => t != uuid
               | _ => true)) uuid,
            files := s.files.filter (fun f => f.uuid != uuid),
            shares := s.shares.map (fun r =>
              if r.uuid = uuid then
                { r with active := false, date_removed := some now }
              else r) }, ?_, ?_, ?_, ?_, ?_⟩
  · rw [FileShare.remove, hnotdecl]
    simp only [Bool.false_eq_true, if_false]
    rw [hsweep]
    simp only []
    rw [if_pos (by rw [hlook]; rfl)]
  · intro n t hmem
    have h1 := mem_of_mem_eraseE _ _ _ hmem
    have h2 := (List.mem_filter.mp h1).2
    simpa using h2
  · exact lookupE_eraseE_self _ _
  · intro r hr hru
    rcases List.mem_map.mp hr with ⟨r0, _, rfl⟩
    by_cases h0 : r0.uuid = uuid
    · rw [if_pos h0]
      exact ⟨rfl, rfl⟩
    · rw [if_neg h0] at hru ⊢
      exact absurd hru h0
  · intro f hf
    have h2 := (List.mem_filter.mp hf).2
    simpa using h2

/-- Witness for C6: removing `uuidA` from a store with one foreign entry, one
share symlink, one files row and one shares row. -/
theorem c6_remove_complete_witness :
    ∃ s', FileShare.remove
        ⟨[("AAAAAAAAAA", DirEntry.symE uuidA), (uuidA, DirEntry.dirE),
          ("other", DirEntry.fileE)],
         [⟨uuidA, "a.txt", 0⟩],
         [⟨uuidA, "bob", "AAAAAAAAAA", 1, none, true⟩]⟩ uuidA true false 2 =
        .ok s' ∧
      (∀ n t, (n, DirEntry.symE t) ∈ s'.entries → t ≠ uuidA) ∧
      lookupE s'.entries uuidA = none ∧
      (∀ r ∈ s'.shares, r.uuid = uuidA →
        r.active = false ∧ r.date_removed = some 2) ∧
      (∀ f ∈ s'.files, f.uuid ≠ uuidA) :=
  c6_remove_complete
    ⟨[("AAAAAAAAAA", DirEntry.symE uuidA), (uuidA, DirEntry.dirE),
      ("other", DirEntry.fileE)],
     [⟨uuidA, "a.txt", 0⟩],
     [⟨uuidA, "bob", "AAAAAAAAAA", 1, none, true⟩]⟩ uuidA true false 2
    rfl rfl

/-! ## Spec resolution and removal: `resolve_file_spec` and `remove_file`
(src/commands.rs:367-411) -/

/-- Rust `str::split('/')` on a character list (`""` splits to `[""]`,
`"a/b"` to `["a", "b"]`). -/
def splitOnSlash : List Char → List (List Char)
  | [] => [[]]
  | c :: rest =>
      if c = '/' then [] :: splitOnSlash rest
      else match splitOnSlash rest with
        | [] => [[c]]
        | h :: t => (c :: h) :: t

/-- Rust `str::parse::<usize>()`: an optional leading `+`, then one or more
digits (overflow ignored; the indices in play are tiny). -/
def parseUsize (l : List Char) : Option Nat :=
  let digits := match l with
    | '+' :: rest => rest
    | _ => l
  if digits ≠ [] ∧ digits.all Char.isDigit then
    some (digits.foldl (fun acc c => acc * 10 + (c.toNat - 48)) 0)
  else
    none

/-- The uuid fast path of `resolve_file_spec` (src/commands.rs:380-382):
exactly 36 characters, exactly four dashes — such a spec is returned as-is,
without consulting the database. -/
def uuidLike (spec : String) : Bool :=
  spec.length == 36 && (spec.data.filter (fun c => c == '-')).length == 4

/-- Stable insert by `date_added`, for `ORDER BY date_added`. -/
def insertByDate (f : FileRow) : List FileRow → List FileRow
  | [] => [f]
  | g :: rest =>
      if f.date_added ≤ g.date_added then f :: g :: rest
      else g :: insertByDate f rest

def sortByDate : List FileRow → List FileRow
  | [] => []
  | f :: rest => insertByDate f (sortByDate rest)

/-- Embedding of `FileShare::find_by_name` (src/main.rs:346-356):
`SELECT uuid, date_added FROM files WHERE filename = ? ORDER BY date_added`. -/
def FileShare.find_by_name (files : List FileRow) (filename : String) :
    List (String × Nat) :=
  (sortByDate (files.filter (fun f => f.filename == filename))).map
    (fun f => (f.uuid, f.date_added))

/-- The name-resolution tail of `resolve_file_spec` (src/commands.rs:393-411).
In Rust `matches.get(index - 1)` with `index = 0` underflows the `usize`; in a
release build `get` then yields `None` and the function returns the
invalid-index error, which is the modelled behaviour. -/
def resolveByName (files : List FileRow) (fn : List Char) (index : Nat)
    (noIndexGiven : Bool) : Except String String :=
  let ms := FileShare.find_by_name files (String.mk fn)
  if ms = [] then .error "File not found"
  else if 1 < ms.length ∧ noIndexGiven = true then .error "Please specify file index"
  else if index = 0 then .error "Invalid file index"
  else match ms.get? (index - 1) with
    | some (u, _) => .ok u
    | none => .error "Invalid file index"

/-- Embedding of `resolve_file_spec` (src/commands.rs:378-411): uuid-shaped
specs pass through unchecked; otherwise the spec is `filename` or
`filename/index` and is resolved against the `files` rows of that name. -/
def resolve_file_spec (files : List FileRow) (spec : String) :
    Except String String :=
  if uuidLike spec then .ok spec
  else
    match splitOnSlash spec.data with
    | [fn] => resolveByName files fn 1 true
    | [fn, idxs] =>
        match parseUsize idxs with
        | none => .error "Invalid index format"
        | some i => resolveByName files fn i false
    | _ => .error "Invalid file specification"

/-- Embedding of `remove_file` (src/commands.rs:367-376): resolve the spec;
if `find_by_uuid` returns a row, run `FileShare::remove` on it; otherwise
return success without doing anything. -/
def remove_file (s : StoreState) (spec : String)
    (force answeredYes : Bool) (now : Nat) : Except String StoreState :=
  match resolve_file_spec s.files spec with
  | .error e => .error e
  | .ok uuid =>
      match FileShare.find_by_uuid s.files uuid with
      | none => .ok s
      | some _ => FileShare.remove s uuid force answeredYes now

theorem splitOnSlash_no_slash :
    ∀ (l : List Char), '/' ∉ l → splitOnSlash l = [l] := by
  intro l
  induction l with
  | nil => intro _; rfl
  | cons c rest ih =>
      intro h
      have hc : ¬(c = '/') := fun hx => h (hx ▸ List.mem_cons_self c rest)
      have hr : '/' ∉ rest := fun hx => h (List.mem_cons_of_mem c hx)
      rw [splitOnSlash, if_neg hc, ih hr]

/-- C9 counterexample: removing an identifier that has no files row (and no
directory — the store is completely empty) returns silent success, not a
`NotFound` error, because uuid-shaped specs bypass `resolve_file_spec`'s
database lookup and `remove_file` treats a missing `find_by_uuid` row as a
no-op. -/
theorem c9_counterexample :
    remove_file ⟨[], [], []⟩ uuidA true false 0 = .ok ⟨[], [], []⟩ := rfl

/-- C9 (amended): when the spec is a filename (not uuid-shaped, no slash) with
no matching files row, `remove_file` fails with the file-not-found error; but
when the spec is a literal uuid-shaped string (36 characters, 4 dashes) with
no files row, `remove_file` silently succeeds as a no-op. -/
theorem c9_remove_missing (s : StoreState) (spec : String)
    (force answeredYes : Bool) (now : Nat) :
    (uuidLike spec = true → FileShare.find_by_uuid s.files spec = none →
      remove_file s spec force answeredYes now = .ok s) ∧
    (uuidLike spec = false → '/' ∉ spec.data →
      FileShare.find_by_name s.files spec = [] →
      remove_file s spec force answeredYes now = .error "File not found") := by
  constructor
  · intro hu hfind
    rw [remove_file, resolve_file_spec, if_pos hu]
    simp only []
    rw [hfind]
  · intro hu hsl hempty
    rw [remove_file, resolve_file_spec, if_neg (by simp [hu])]
    rw [splitOnSlash_no_slash spec.data hsl]
    simp only []
    rw [resolveByName]
    have hmk : String.mk spec.data = spec := by
      obtain ⟨l⟩ := spec
      rfl
    rw [hmk, hempty]
    simp

/-- Witness for C9 (amended) at concrete inputs. -/
theorem c9_remove_missing_witness :
    remove_file ⟨[], [], []⟩ uuidA true false 0 = .ok ⟨[], [], []⟩ ∧
    remove_file ⟨[], [], []⟩ "nope.txt" true false 0 =
      .error "File not found" :=
  ⟨(c9_remove_missing ⟨[], [], []⟩ uuidA true false 0).1 rfl rfl,
   (c9_remove_missing ⟨[], [], []⟩ "nope.txt" true false 0).2 rfl
     (by decide) rfl⟩

/-! ## Ingestion frame effects: `add_file` (src/commands.rs:131-186) -/

/-- Filesystem effects of `add_file`, in issue order. Paths are character
lists of the lossy path strings the code compares. -/
inductive FileOp
  | createDir (p : List Char)
  | copyF (src dst : List Char)
  | removeF (p : List Char)
  | lockdownRec (p : List Char)
  | writeStdinTemp (p : List Char)
deriving DecidableEq, Repr

/-- Rust `Path::file_name()` of the source path: the last non-empty
`/`-component; `None` (an error upstream) when there is none or it is `..`.
(Rust also returns `None` for a trailing `.`, which slink paths do not use.) -/
def fileNameOf (p : List Char) : Option (List Char) :=
  match ((splitOnSlash p).filter (fun c => !c.isEmpty)).getLast? with
  | none => none
  | some c => if c = ['.', '.'] then none else some c

/-- The marker prefixed to stdin staging files
(`format!("slink_temp_{}_{}", Uuid::new_v4(), filename)`). -/
def slinkTempMark : List Char := "slink_temp_".data

/-- Embedding of the filesystem effects of `add_file`
(src/commands.rs:131-186), with the two random uuids supplied as arguments.
The stored filename is the sanitized `name` option when given, else the
source's `file_name()`. A stdin source (`"-"`) is staged to
`base_dir/slink_temp_<uuid2>_<filename>` first. After `fs::copy(final_path,
base_dir/<uuid>/<filename>)`, the file at `final_path` is deleted if and
only if that path contains the substring `"slink_temp_"`; then
`set_permissions_recursive` runs on the new directory (the database insert
is not a filesystem effect). -/
def add_file_trace (base_dir file_path : List Char)
    (nameArg : Option (List Char)) (uuid uuid2 : List Char) :
    Except String (List FileOp) :=
  match (match nameArg with
         | some nm => sanitize_filename nm
         | none => match fileNameOf file_path with
           | none => Except.error "Invalid filename"
           | some fn => Except.ok fn) with
  | .error e => .error e
  | .ok filename =>
    let stdinPath := base_dir ++ '/' :: slinkTempMark ++ uuid2 ++ '_' :: filename
    let final_path := if file_path = ['-'] then stdinPath else file_path
    let target_dir := base_dir ++ '/' :: uuid
    let target_file := target_dir ++ '/' :: filename
    .ok ((if file_path = ['-'] then [FileOp.writeStdinTemp stdinPath] else [])
      ++ [FileOp.createDir target_dir, FileOp.copyF final_path target_file]
      ++ (if containsSub final_path slinkTempMark then
            [FileOp.removeF final_path]
          else [])
      ++ [FileOp.lockdownRec target_dir])

/-- Does this effect write to or modify the file at path `q`? (`copyF` reads
its source and writes its destination; `lockdownRec` chmods/chowns everything
at or below its root.) -/
def FileOp.touches : FileOp → List Char → Bool
  | .createDir p, q => p == q
  | .copyF _ dst, q => dst == q
  | .removeF p, q => p == q
  | .lockdownRec p, q => p.isPrefixOf q
  | .writeStdinTemp p, q => p == q

theorem isPrefixOf_append_self (l x : List Char) :
    l.isPrefixOf (l ++ x) = true := by
  induction l with
  | nil => simp [List.isPrefixOf]
  | cons c rest ih => simp [List.isPrefixOf, ih]

theorem eq_append_of_isPrefixOf :
    ∀ (l q : List Char), l.isPrefixOf q = true → ∃ x, q = l ++ x := by
  intro l
  induction l with
  | nil => intro q _; exact ⟨q, rfl⟩
  | cons c rest ih =>
      intro q h
      cases q with
      | nil => simp [List.isPrefixOf] at h
      | cons d q' =>
          rw [List.isPrefixOf] at h
          have hcd : c = d := by
            have := (Bool.and_eq_true _ _).mp h
            simpa using this.1
          obtain ⟨x, hx⟩ := ih q' (by
            have := (Bool.and_eq_true _ _).mp h
            exact this.2)
          exact ⟨x, by rw [hx, hcd]; rfl⟩

/-- C10: for a regular-file source (`file_path ≠ "-"`) lying outside the base
directory, `add_file` leaves the caller's source file untouched if and only
if its path does not contain the substring `"slink_temp_"`; when the path
does contain it, the trace deletes the source, and only after copying it
into the store. -/
theorem c10_source_deleted_iff (base_dir file_path : List Char)
    (nameArg : Option (List Char)) (uuid uuid2 : List Char) (tr : List FileOp)
    (hreg : file_path ≠ ['-'])
    (hout : ¬ base_dir.isPrefixOf file_path = true)
    (htr : add_file_trace base_dir file_path nameArg uuid uuid2 = .ok tr) :
    ((∃ e ∈ tr, FileOp.touches e file_path = true) ↔
      containsSub file_path slinkTempMark = true) ∧
    (containsSub file_path slinkTempMark = true →
      ∃ l1 l2 dst, tr = l1 ++ FileOp.removeF file_path :: l2 ∧
        FileOp.copyF file_path dst ∈ l1) := by
  rcases hname : (match nameArg with
         | some nm => sanitize_filename nm
         | none => match fileNameOf file_path with
           | none => Except.error "Invalid filename"
           | some fn => Except.ok fn) with e | filename
  · rw [add_file_trace.eq_def, hname] at htr
    exact absurd htr (by simp)
  · rw [add_file_trace.eq_def, hname] at htr
    simp only [if_neg hreg] at htr
    have hcd : ∀ x : List Char, ¬(base_dir ++ x = file_path) := by
      intro x hx
      exact hout (hx ▸ isPrefixOf_append_self base_dir x)
    have hcdb : ∀ x : List Char, ((base_dir ++ x) == file_path) = false := by
      intro x
      exact beq_eq_false_iff_ne.mpr (hcd x)
    have hlock : (base_dir ++ '/' :: uuid).isPrefixOf file_path = false := by
      cases hpb : (base_dir ++ '/' :: uuid).isPrefixOf file_path
      · rfl
      · obtain ⟨x, hx⟩ := eq_append_of_isPrefixOf _ _ hpb
        exfalso
        apply hout
        rw [hx, List.append_assoc]
        exact isPrefixOf_append_self base_dir _
    by_cases hc : containsSub file_path slinkTempMark = true
    · rw [if_pos hc] at htr
      obtain rfl : tr = [FileOp.createDir (base_dir ++ '/' :: uuid),
          FileOp.copyF file_path ((base_dir ++ '/' :: uuid) ++ '/' :: filename),
          FileOp.removeF file_path,
          FileOp.lockdownRec (base_dir ++ '/' :: uuid)] := by
        have := htr
        simp only [List.nil_append] at this
        exact (Except.ok.injEq _ _ ▸ this).symm ▸ rfl
      constructor
      · constructor
        · intro _; exact hc
        · intro _
          exact ⟨FileOp.removeF file_path, by simp, by simp [FileOp.touches]⟩
      · intro _
        refine ⟨[FileOp.createDir (base_dir ++ '/' :: uuid),
            FileOp.copyF file_path ((base_dir ++ '/' :: uuid) ++ '/' :: filename)],
            [FileOp.lockdownRec (base_dir ++ '/' :: uuid)],
            (base_dir ++ '/' :: uuid) ++ '/' :: filename, rfl, by simp⟩
    · rw [if_neg hc] at htr
      obtain rfl : tr = [FileOp.createDir (base_dir ++ '/' :: uuid),
          FileOp.copyF file_path ((base_dir ++ '/' :: uuid) ++ '/' :: filename),
          FileOp.lockdownRec (base_dir ++ '/' :: uuid)] := by
        have := htr
        simp only [List.nil_append, List.append_nil] at this
        exact (Except.ok.injEq _ _ ▸ this).symm ▸ rfl
      constructor
      · constructor
        · rintro ⟨e, he, ht⟩
          exfalso
          rcases List.mem_cons.mp he with rfl | he'
          · rw [FileOp.touches, hcdb ('/' :: uuid)] at ht
            exact Bool.false_ne_true ht
          rcases List.mem_cons.mp he' with rfl | he''
          · rw [FileOp.touches] at ht
            have : ((base_dir ++ '/' :: uuid) ++ '/' :: filename ==
                file_path) = false := by
              rw [List.append_assoc]
              exact hcdb _
            rw [this] at ht
            exact Bool.false_ne_true ht
          rcases List.mem_cons.mp he'' with rfl | he'''
          · rw [FileOp.touches, hlock] at ht
            exact Bool.false_ne_true ht
          · simp at he'''
        · intro hx
          exact absurd hx hc
      · intro hx
        exact absurd hx hc

/-- Witness for C10: a source path containing the staging marker, outside the
base directory, is deleted by the trace after the copy. -/
theorem c10_source_deleted_iff_witness :
    ((∃ e ∈ [FileOp.createDir ("/var/www/u1".data),
        FileOp.copyF ("/tmp/slink_temp_x".data) ("/var/www/u1/slink_temp_x".data),
        FileOp.removeF ("/tmp/slink_temp_x".data),
        FileOp.lockdownRec ("/var/www/u1".data)],
        FileOp.touches e ("/tmp/slink_temp_x".data) = true) ↔
      containsSub ("/tmp/slink_temp_x".data) slinkTempMark = true) ∧
    (containsSub ("/tmp/slink_temp_x".data) slinkTempMark = true →
      ∃ l1 l2 dst, [FileOp.createDir ("/var/www/u1".data),
        FileOp.copyF ("/tmp/slink_temp_x".data) ("/var/www/u1/slink_temp_x".data),
        FileOp.removeF ("/tmp/slink_temp_x".data),
        FileOp.lockdownRec ("/var/www/u1".data)] =
          l1 ++ FileOp.removeF ("/tmp/slink_temp_x".data) :: l2 ∧
        FileOp.copyF ("/tmp/slink_temp_x".data) dst ∈ l1) :=
  c10_source_deleted_iff ("/var/www".data) ("/tmp/slink_temp_x".data)
    none ("u1".data) ("u2".data)
    [FileOp.createDir ("/var/www/u1".data),
     FileOp.copyF ("/tmp/slink_temp_x".data) ("/var/www/u1/slink_temp_x".data),
     FileOp.removeF ("/tmp/slink_temp_x".data),
     FileOp.lockdownRec ("/var/www/u1".data)]
    (by decide) (by decide) rfl

end Slink
